import Mathlib

/-!
# Scopy tool menu (`src/toolmenu.cpp`)

A shallow embedding of `adiscope::ToolMenu`: the persisted position list and its
reconciliation, the registry of `(menu item, tool)` pairs, the hardware filter, the
drag reordering, the lookup and the settings round trip.

Modelling conventions.

* `enum tool` is represented by its underlying integer value; `static_cast<tool>(int)` and
  the conversion of a `tool` into a `QVariant` keep that value.
* A `BaseMenuItem *` stored in the registry is always the result of a `new ToolMenuItem(...)`
  and is represented by the item it points to; a nullable result is an `Option`.
* `QVector` / `QStringList` / `std::vector` index operations whose index is outside the
  container have no defined result; the operations that perform them return `none` there.
* The superclass `BaseMenu` (its members `d_items`, `removeMenuItem`, `insertMenuItem`) is
  not part of the sources at hand. It is a parameter: an arbitrary state type with an
  arbitrary effect for each call; a call changes the `BaseMenu` part of the object only,
  not the fields `ToolMenu` declares. Every call made on it is also recorded in a call list.
* `QSettings` is the Qt class; it is represented by a store from keys to integer values
  with the documented behaviour of its array interface.
* Signal connections, the button group and widget visibility are Qt side effects without
  influence on the fields modelled here and are left out.
-/

namespace adiscope

/-! ## Data model -/

/-- The underlying integer value of an `enum tool` enumerator. -/
abbrev tool := Int

/-- A `ToolMenuItem` as created by `new ToolMenuItem(name, iconPath, this)`. -/
structure ToolMenuItem where
  name : String
  iconPath : String
deriving DecidableEq, Repr

/-- The hardware filter: its hardware identity and its compatibility predicate. -/
structure Filter where
  hw_name : String
  compatible : tool → Bool

/-- A call made by `ToolMenu` on its superclass `BaseMenu`. -/
inductive MenuCall where
  | removeMenuItem (item : ToolMenuItem)
  | removeMenuItems (items : List ToolMenuItem)
  | insertMenuItem (items : List ToolMenuItem) (positions : List Int)
deriving DecidableEq, Repr

/-- The superclass `BaseMenu`, taken as a parameter: `d_items` reads the visible-item count
of its state, `perform` is the effect of one call on its state. -/
structure BaseMenu (β : Type) where
  d_items : β → Int
  perform : β → MenuCall → β

/-- The fields of a `ToolMenu` object; `base` is the `BaseMenu` part. -/
structure ToolMenu (β : Type) where
  base : β
  d_availableTools : List String
  d_availableIcons : List String
  d_positions : List Int
  d_tools : List (ToolMenuItem × tool)
  d_compatibleTools : List ToolMenuItem
  d_current_hw_name : String

/-- The labels the constructor stores in `d_availableTools` (untranslated). -/
def availableTools : List String :=
  ["Oscilloscope", "Spectrum Analyzer", "Network Analyzer", "Signal Generator",
   "Logic Analyzer", "Pattern Generator", "Digital IO", "Voltmeter",
   "Power Supply", "Debugger", "Calibration", "NewInstrument"]

/-- The icon paths the constructor stores in `d_availableIcons`. -/
def availableIcons : List String :=
  [":/menu/oscilloscope.png", ":/menu/spectrum_analyzer.png", ":/menu/network_analyzer.png",
   ":/menu/signal_generator.png", ":/menu/logic_analyzer.png", ":/menu/pattern_generator.png",
   ":/menu/io.png", ":/menu/voltmeter.png", ":/menu/power_supply.png", ":/menu/debugger.png",
   ":/menu/calibration.png", ":/menu/calibration.png"]

/-- The object state at the start of the constructor body, before `_loadState()`. -/
def ToolMenu.fresh {β : Type} (base : β) (tools icons : List String) : ToolMenu β :=
  { base := base, d_availableTools := tools, d_availableIcons := icons,
    d_positions := [], d_tools := [], d_compatibleTools := [], d_current_hw_name := "" }

/-- Indexing `v[i]` of a Qt container with an `int` index; `none` outside `0 .. size-1`. -/
def elemAt {α : Type} (xs : List α) (i : Int) : Option α :=
  if 0 ≤ i then xs[i.toNat]? else none

/-! ## `_buildAllAvailableTools`: reconciliation and construction of the registry -/

/-- The loop `while (d_positions.size() < d_availableTools.size())
d_positions.push_back(d_positions.size());` with `n = d_availableTools.size()`. -/
def pushWhileShort (n : Nat) (d_positions : List Int) : List Int :=
  if d_positions.length < n then
    pushWhileShort n (d_positions ++ [(d_positions.length : Int)])
  else d_positions
termination_by n - d_positions.length
decreasing_by simp; omega

/-- The first statement of `_buildAllAvailableTools`: an empty `d_positions` is filled with
`0 .. n-1` by the `for` loop, a non-empty one is extended by the `while` loop. -/
def reconcile (n : Nat) (d_positions : List Int) : List Int :=
  if d_positions.isEmpty then
    (List.range n).foldl (fun acc (i : Nat) => acc ++ [(i : Int)]) d_positions
  else pushWhileShort n d_positions

/-- One pass of the second loop of `_buildAllAvailableTools` at index `i`: the item is
created from `d_availableTools[d_positions[i]]` and `d_availableIcons[d_positions[i]]` and
pushed on `d_tools` together with `static_cast<tool>(d_positions[i])`. -/
def buildStep {β : Type} (m : ToolMenu β) (i : Nat) : Option (ToolMenu β) :=
  match m.d_positions[i]? with
  | none => none
  | some pos =>
    match elemAt m.d_availableTools pos, elemAt m.d_availableIcons pos with
    | some name, some icon =>
      some { m with d_tools := m.d_tools ++ [(ToolMenuItem.mk name icon, pos)] }
    | _, _ => none

/-- `ToolMenu::_buildAllAvailableTools()`. -/
def ToolMenu._buildAllAvailableTools {β : Type} (m : ToolMenu β) : Option (ToolMenu β) :=
  (List.range m.d_availableTools.length).foldlM buildStep
    { m with d_positions := reconcile m.d_availableTools.length m.d_positions }

/-! ## `QSettings` and `_saveState` / `_loadState` -/

/-- The keys of a `QSettings` store that the array interface uses: the `size` entry of an
array and the entry `key` of its element number `index` (Qt numbers them from 1). -/
inductive SettingsKey where
  | arraySize (array : String)
  | arrayEntry (array : String) (index : Nat) (key : String)
deriving DecidableEq, Repr

/-- A `QSettings` store holding integer values. -/
structure QSettings where
  value : SettingsKey → Option Int

/-- `QSettings::setValue` on a fully qualified key. -/
def QSettings.setValue (s : QSettings) (k : SettingsKey) (v : Int) : QSettings :=
  { value := fun k' => if k' = k then some v else s.value k' }

/-- `QSettings::remove` on a fully qualified key. -/
def QSettings.remove (s : QSettings) (k : SettingsKey) : QSettings :=
  { value := fun k' => if k' = k then none else s.value k' }

/-- `settings.value(key).value<int>()`: a missing entry converts to `0`. -/
def QSettings.intValue (s : QSettings) (k : SettingsKey) : Int :=
  (s.value k).getD 0

/-- The loop of `_saveState` from index `i` on: `setArrayIndex(i)` followed by
`setValue("idx", QVariant(d_tools[i].second))`. -/
def saveLoop : Nat → List (ToolMenuItem × tool) → QSettings → QSettings
  | _, [], s => s
  | i, e :: rest, s =>
    saveLoop (i + 1) rest (s.setValue (SettingsKey.arrayEntry "toolMenu/pos" (i + 1) "idx") e.2)

/-- `ToolMenu::_saveState()`: `beginWriteArray` without a size removes the `size` entry,
`endArray` writes the number of elements that were indexed. -/
def ToolMenu._saveState {β : Type} (m : ToolMenu β) (settings : QSettings) : QSettings :=
  let opened := settings.remove (SettingsKey.arraySize "toolMenu/pos")
  let written := saveLoop 0 m.d_tools opened
  written.setValue (SettingsKey.arraySize "toolMenu/pos") (m.d_tools.length : Int)

/-- `ToolMenu::_loadState()`: `beginReadArray` returns the `size` entry, and each of the
`n` passes pushes the `idx` entry of element `i` on `d_positions`. -/
def ToolMenu._loadState {β : Type} (m : ToolMenu β) (settings : QSettings) : ToolMenu β :=
  let n := settings.intValue (SettingsKey.arraySize "toolMenu/pos")
  let read := fun (acc : List Int) (i : Nat) =>
    acc ++ [settings.intValue (SettingsKey.arrayEntry "toolMenu/pos" (i + 1) "idx")]
  { m with d_positions := (List.range n.toNat).foldl read m.d_positions }

/-! ## `loadToolsFromFilter` -/

/-- The three vectors filled by the loop of `loadToolsFromFilter`. -/
structure Partition where
  compatibleTools : List ToolMenuItem
  compatiblePositions : List Int
  notCompatibleTools : List ToolMenuItem
deriving DecidableEq, Repr

/-- The loop over `d_tools` of `loadToolsFromFilter`, from index `i` on. -/
def partitionLoop (filter : Filter) :
    List (ToolMenuItem × tool) → Int → Partition → Partition
  | [], _, acc => acc
  | e :: rest, i, acc =>
    if filter.compatible e.2 then
      partitionLoop filter rest (i + 1)
        { acc with compatibleTools := acc.compatibleTools ++ [e.1],
                   compatiblePositions := acc.compatiblePositions ++ [i] }
    else
      partitionLoop filter rest (i + 1)
        { acc with notCompatibleTools := acc.notCompatibleTools ++ [e.1] }

/-- The loop of the `!filter` branch: `removeMenuItem(d_tools[i].first)` for every entry.
The accumulator is the `BaseMenu` state and the calls made so far. -/
def removeAllLoop {β : Type} (B : BaseMenu β) :
    List (ToolMenuItem × tool) → β × List MenuCall → β × List MenuCall
  | [], acc => acc
  | e :: rest, acc =>
    removeAllLoop B rest
      (B.perform acc.1 (MenuCall.removeMenuItem e.1), acc.2 ++ [MenuCall.removeMenuItem e.1])

/-- `ToolMenu::loadToolsFromFilter(Filter *filter)`; a null filter is `none`. The result is
the new object state and the calls made on `BaseMenu`, in order. -/
def ToolMenu.loadToolsFromFilter {β : Type} (B : BaseMenu β) (m : ToolMenu β) :
    Option Filter → ToolMenu β × List MenuCall
  | none =>
    let r := removeAllLoop B m.d_tools (m.base, [])
    ({ m with base := r.1, d_current_hw_name := "" }, r.2)
  | some filter =>
    if m.d_current_hw_name = filter.hw_name then (m, [])
    else
      let p := partitionLoop filter m.d_tools 0 (Partition.mk [] [] [])
      let call :=
        if p.notCompatibleTools.length ≠ 0 ∧ B.d_items m.base ≠ 0 then
          MenuCall.removeMenuItems p.notCompatibleTools
        else MenuCall.insertMenuItem p.compatibleTools p.compatiblePositions
      ({ m with base := B.perform m.base call,
                d_current_hw_name := filter.hw_name,
                d_compatibleTools := p.compatibleTools }, [call])

/-! ## `getToolMenuItemFor` and `_updateToolList` -/

/-- The loop of `getToolMenuItemFor`: the item of the first entry whose tool is `t`. -/
def lookupLoop (t : tool) : List (ToolMenuItem × tool) → Option ToolMenuItem
  | [] => none
  | e :: rest => if e.2 = t then some e.1 else lookupLoop t rest

/-- `ToolMenu::getToolMenuItemFor(enum tool tool)`; `nullptr` is `none`. -/
def ToolMenu.getToolMenuItemFor {β : Type} (m : ToolMenu β) (t : tool) : Option ToolMenuItem :=
  lookupLoop t m.d_tools

/-- `ToolMenu::_updateToolList(short from, short to)`. `d_tools[from]` and
`d_tools.remove(from)` need `0 ≤ from < size`, `d_tools.insert(to, ·)` needs
`0 ≤ to ≤ size` of the shortened vector. -/
def ToolMenu._updateToolList {β : Type} (B : BaseMenu β) (m : ToolMenu β) (src dst : Int) :
    Option (ToolMenu β) :=
  if B.d_items m.base = (m.d_tools.length : Int) then
    match elemAt m.d_tools src with
    | none => none
    | some toMove =>
      let removed := m.d_tools.eraseIdx src.toNat
      if 0 ≤ dst ∧ dst ≤ (removed.length : Int) then
        some { m with d_tools := removed.insertIdx dst.toNat toMove }
      else none
  else some m

/-! ## Vocabulary of the statements -/

/-- The indices `a, a+1, ..., a+k-1` as `int` values. -/
def intsFrom (a k : Nat) : List Int := (List.range' a k).map (fun (i : Nat) => (i : Int))

/-- The registry entry that one pass of the build loop creates for position value `pos`. -/
def entryFor (tools icons : List String) (pos : Int) : ToolMenuItem × tool :=
  (ToolMenuItem.mk (tools.getD pos.toNat "") (icons.getD pos.toNat ""), pos)

/-- Position value `x` is a valid index into a table of `n` tools. -/
def validIndex (n : Nat) (x : Int) : Prop := 0 ≤ x ∧ x < (n : Int)

instance validIndex.decidable (n : Nat) (x : Int) : Decidable (validIndex n x) := by
  unfold validIndex; infer_instance

/-- Every entry of registry `r` carries the label and icon that the tables hold for its tool. -/
def labelled (tools icons : List String) (r : List (ToolMenuItem × tool)) : Prop :=
  ∀ e ∈ r, elemAt tools e.2 = some e.1.name ∧ elemAt icons e.2 = some e.1.iconPath

/-- The registry entries paired with their index in the registry, from index `i` on. -/
def indexedFrom (i : Nat) (r : List (ToolMenuItem × tool)) :
    List (Int × (ToolMenuItem × tool)) :=
  (intsFrom i r.length).zip r

/-- The entries of `r` whose tool the filter accepts, each with its index in `r`. -/
def accepted (filter : Filter) (r : List (ToolMenuItem × tool)) :
    List (Int × (ToolMenuItem × tool)) :=
  (indexedFrom 0 r).filter (fun x => filter.compatible x.2.2)

/-- The items of the entries of `r` whose tool the filter rejects, in registry order. -/
def rejectedItems (filter : Filter) (r : List (ToolMenuItem × tool)) : List ToolMenuItem :=
  (r.filter (fun e => !filter.compatible e.2)).map Prod.fst

/-- The items of the entries of `r` whose tool the filter accepts, in registry order. -/
def acceptedItems (filter : Filter) (r : List (ToolMenuItem × tool)) : List ToolMenuItem :=
  (r.filter (fun e => filter.compatible e.2)).map Prod.fst

/-! ## Concrete states used to evaluate the operations -/

/-- Modelled from the spec: `BaseMenu` is missing from the sources and the spec only says
that it tracks the number of visible items. This instance keeps just that count, which a
removal lowers and an insertion raises by the number of items passed. It is used only to
evaluate the operations on concrete states; the theorems hold for every `BaseMenu`. -/
def countingMenu : BaseMenu Int :=
  { d_items := fun n => n,
    perform := fun n c =>
      match c with
      | MenuCall.removeMenuItem _ => n - 1
      | MenuCall.removeMenuItems items => n - items.length
      | MenuCall.insertMenuItem items _ => n + items.length }

/-- A settings store without entries. -/
def emptySettings : QSettings := { value := fun _ => none }

/-- A menu over the constructor's tables whose first two tools have been swapped. -/
def swappedMenu : ToolMenu Int :=
  { base := 12, d_availableTools := availableTools, d_availableIcons := availableIcons,
    d_positions := [1, 0, 2, 3, 4, 5, 6, 7, 8, 9, 10, 11],
    d_tools := [1, 0, 2, 3, 4, 5, 6, 7, 8, 9, 10, 11].map (entryFor availableTools availableIcons),
    d_compatibleTools := [], d_current_hw_name := "" }

/-- A store whose saved array has the single entry `12`, an index beyond the twelve tools
of the constructor's tables. -/
def staleSettings : QSettings :=
  (emptySettings.setValue (SettingsKey.arrayEntry "toolMenu/pos" 1 "idx") 12).setValue
    (SettingsKey.arraySize "toolMenu/pos") 1

/-- A store whose saved array is `[1, 0]`, as written while only two tools existed. -/
def shortSettings : QSettings :=
  ((emptySettings.setValue (SettingsKey.arrayEntry "toolMenu/pos" 1 "idx") 1).setValue
    (SettingsKey.arrayEntry "toolMenu/pos" 2 "idx") 0).setValue
    (SettingsKey.arraySize "toolMenu/pos") 2

/-- A filter for hardware `M2K` that accepts every tool except number 11. -/
def m2kFilter : Filter := { hw_name := "M2K", compatible := fun t => decide (t ≠ 11) }

/-- A second filter object with the hardware identity of `m2kFilter` and another predicate. -/
def m2kOtherFilter : Filter := { hw_name := "M2K", compatible := fun t => decide (t ≠ 0) }

/-- The menu `swappedMenu` while none of its items is displayed (`d_items = 0`). -/
def hiddenMenu : ToolMenu Int := { swappedMenu with base := 0 }

/-- A menu whose base state reports eleven visible items for twelve tracked tools. -/
def filteredMenu : ToolMenu Int := { swappedMenu with base := 11 }

/-! ## Reconciliation -/

/-- A loop that pushes `f i` for every `i` of `l` appends `l.map f`. -/
theorem foldl_push_eq {α β : Type} (f : α → β) (l : List α) (acc : List β) :
    l.foldl (fun acc i => acc ++ [f i]) acc = acc ++ l.map f := by
  induction l generalizing acc with
  | nil => simp
  | cons a l ih => simp [ih]

/-- The `while` loop appends the indices from the current size up to `n - 1`. -/
theorem pushWhileShort_eq (n : Nat) (p : List Int) :
    pushWhileShort n p = p ++ intsFrom p.length (n - p.length) := by
  generalize h : n - p.length = k
  induction k generalizing p with
  | zero =>
    rw [pushWhileShort, if_neg (by omega)]; simp [intsFrom]
  | succ k ih =>
    rw [pushWhileShort, if_pos (by omega)]
    rw [ih _ (by simp; omega)]
    simp [intsFrom, List.range'_succ]

/-- Closed form of the reconciliation, for the empty and the non-empty list alike. -/
theorem reconcile_eq (n : Nat) (p : List Int) :
    reconcile n p = p ++ intsFrom p.length (n - p.length) := by
  unfold reconcile
  split
  · rename_i h
    have : p = [] := by simpa using h
    subst this
    rw [foldl_push_eq]
    simp only [List.nil_append, List.range_eq_range', intsFrom, List.length_nil, Nat.sub_zero]
  · exact pushWhileShort_eq n p

/-- Membership in `intsFrom a k`. -/
theorem mem_intsFrom {a k : Nat} {x : Int} :
    x ∈ intsFrom a k ↔ ∃ i : Nat, a ≤ i ∧ i < a + k ∧ x = (i : Int) := by
  simp only [intsFrom, List.mem_map, List.mem_range'_1]
  constructor
  · rintro ⟨i, ⟨h1, h2⟩, rfl⟩; exact ⟨i, h1, h2, rfl⟩
  · rintro ⟨i, h1, h2, rfl⟩; exact ⟨i, ⟨h1, h2⟩, rfl⟩

/-- The list `intsFrom a k` has `k` entries. -/
theorem length_intsFrom (a k : Nat) : (intsFrom a k).length = k := by
  simp [intsFrom]

/-- Indexing at a valid index yields the element. -/
theorem elemAt_of_valid {α : Type} (xs : List α) (d : α) (x : Int)
    (h : validIndex xs.length x) : elemAt xs x = some (xs.getD x.toNat d) := by
  obtain ⟨h0, h1⟩ := h
  have hlt : x.toNat < xs.length := by omega
  simp [elemAt, h0, List.getD, List.getElem?_eq_getElem hlt]

/-- Indexing outside the container has no result. -/
theorem elemAt_eq_none_of_not_valid {α : Type} (xs : List α) (x : Int)
    (h : ¬ validIndex xs.length x) : elemAt xs x = none := by
  unfold elemAt validIndex at *
  split
  · rename_i h0
    have : xs.length ≤ x.toNat := by omega
    simp [this]
  · rfl

/-- One pass of the build loop at a valid position value pushes its entry. -/
theorem buildStep_of_valid {β : Type} (m : ToolMenu β) (i : Nat) (pos : Int)
    (hi : m.d_positions[i]? = some pos)
    (ht : validIndex m.d_availableTools.length pos)
    (hc : validIndex m.d_availableIcons.length pos) :
    buildStep m i = some { m with d_tools :=
      m.d_tools ++ [entryFor m.d_availableTools m.d_availableIcons pos] } := by
  unfold buildStep
  rw [hi]
  simp only [elemAt_of_valid _ "" pos ht, elemAt_of_valid _ "" pos hc, entryFor]

/-- The first `k` passes of the build loop over valid position values. -/
theorem foldlM_buildStep {β : Type} (m : ToolMenu β) (k : Nat)
    (hk : k ≤ m.d_positions.length)
    (ht : ∀ x ∈ m.d_positions.take k, validIndex m.d_availableTools.length x)
    (hc : ∀ x ∈ m.d_positions.take k, validIndex m.d_availableIcons.length x) :
    (List.range k).foldlM buildStep m =
      some { m with
        d_tools := m.d_tools ++
          (m.d_positions.take k).map (entryFor m.d_availableTools m.d_availableIcons) } := by
  induction k with
  | zero => simp
  | succ k ih =>
    have hlt : k < m.d_positions.length := by omega
    have htake : m.d_positions.take (k + 1) = m.d_positions.take k ++ [m.d_positions[k]] := by
      rw [List.take_succ, List.getElem?_eq_getElem hlt]; rfl
    rw [htake] at ht hc
    rw [List.range_succ, List.foldlM_append,
      ih (by omega) (fun x hx => ht x (List.mem_append_left _ hx))
        (fun x hx => hc x (List.mem_append_left _ hx))]
    have hlast : m.d_positions[k] ∈ m.d_positions.take k ++ [m.d_positions[k]] :=
      List.mem_append_right _ (List.mem_singleton_self _)
    have hstep := buildStep_of_valid
      { m with
        d_tools := m.d_tools ++
          (m.d_positions.take k).map (entryFor m.d_availableTools m.d_availableIcons) }
      k m.d_positions[k] (List.getElem?_eq_getElem hlt) (ht _ hlast) (hc _ hlast)
    simp only [Option.bind_eq_bind, Option.some_bind, List.foldlM_cons, List.foldlM_nil]
    rw [hstep]
    simp only [htake, List.map_append, List.map_cons, List.map_nil, List.append_assoc]
    rfl

/-- With valid position values `_buildAllAvailableTools` appends one entry per tool. -/
theorem build_of_valid {β : Type} (m : ToolMenu β)
    (hicons : m.d_availableIcons.length = m.d_availableTools.length)
    (hv : ∀ x ∈ m.d_positions, validIndex m.d_availableTools.length x) :
    m._buildAllAvailableTools =
      some { m with
        d_positions := reconcile m.d_availableTools.length m.d_positions,
        d_tools := m.d_tools ++
          ((reconcile m.d_availableTools.length m.d_positions).take
            m.d_availableTools.length).map (entryFor m.d_availableTools m.d_availableIcons) } := by
  have hrec : ∀ x ∈ reconcile m.d_availableTools.length m.d_positions,
      validIndex m.d_availableTools.length x := by
    intro x hx
    rw [reconcile_eq, List.mem_append] at hx
    rcases hx with hx | hx
    · exact hv x hx
    · rw [mem_intsFrom] at hx
      obtain ⟨i, _, hi, rfl⟩ := hx
      constructor <;> omega
  unfold ToolMenu._buildAllAvailableTools
  rw [foldlM_buildStep]
  · simp only [reconcile_eq, List.length_append, length_intsFrom]; omega
  · intro x hx; exact hrec x (List.mem_of_mem_take hx)
  · intro x hx; rw [hicons]; exact hrec x (List.mem_of_mem_take hx)

/-- Reconciliation keeps the entries valid and makes no invalid entry valid. -/
theorem reconcile_valid_iff (n : Nat) (p : List Int) :
    (∀ x ∈ reconcile n p, validIndex n x) ↔ (∀ x ∈ p, validIndex n x) := by
  rw [reconcile_eq]
  constructor
  · intro h x hx; exact h x (List.mem_append_left _ hx)
  · intro h x hx
    rcases List.mem_append.1 hx with hx | hx
    · exact h x hx
    · rw [mem_intsFrom] at hx
      obtain ⟨i, _, hi, rfl⟩ := hx
      constructor <;> omega

/-- The save loop does not touch a `size` entry. -/
theorem saveLoop_value_size (a : String) (i : Nat) (l : List (ToolMenuItem × tool))
    (s : QSettings) :
    (saveLoop i l s).value (SettingsKey.arraySize a) = s.value (SettingsKey.arraySize a) := by
  induction l generalizing i s with
  | nil => rfl
  | cons e rest ih => rw [saveLoop, ih]; simp [QSettings.setValue]

/-- The save loop from index `i` on does not touch the elements before `i`. -/
theorem saveLoop_value_below (i j : Nat) (hj : j < i) (l : List (ToolMenuItem × tool))
    (s : QSettings) :
    (saveLoop i l s).value (SettingsKey.arrayEntry "toolMenu/pos" (j + 1) "idx") =
      s.value (SettingsKey.arrayEntry "toolMenu/pos" (j + 1) "idx") := by
  induction l generalizing i s with
  | nil => rfl
  | cons e rest ih =>
    rw [saveLoop, ih (i + 1) (by omega)]
    have : j ≠ i := by omega
    simp [QSettings.setValue, this]

/-- The save loop stores the tool of entry `k` in element `i + k`. -/
theorem saveLoop_value_entry (i : Nat) (l : List (ToolMenuItem × tool)) (s : QSettings)
    (k : Nat) (hk : k < l.length) :
    (saveLoop i l s).value (SettingsKey.arrayEntry "toolMenu/pos" (i + k + 1) "idx") =
      some (l[k]).2 := by
  induction l generalizing i s k with
  | nil => simp at hk
  | cons e rest ih =>
    rw [saveLoop]
    cases k with
    | zero =>
      rw [Nat.add_zero, saveLoop_value_below (i + 1) i (by omega)]
      simp [QSettings.setValue]
    | succ k =>
      have h := ih (i + 1) (s.setValue (SettingsKey.arrayEntry "toolMenu/pos" (i + 1) "idx") e.2)
        k (by simpa using hk)
      have e1 : i + (k + 1) + 1 = i + 1 + k + 1 := by omega
      rw [e1, h]
      simp

/-- Loading what `_saveState` wrote gives the tool kinds of the registry, in order. -/
theorem loadState_saveState {β γ : Type} (m : ToolMenu β) (f : ToolMenu γ)
    (hf : f.d_positions = []) (st : QSettings) :
    (f._loadState (m._saveState st)).d_positions = m.d_tools.map Prod.snd := by
  have hsize : (m._saveState st).intValue (SettingsKey.arraySize "toolMenu/pos") =
      (m.d_tools.length : Int) := by
    simp [ToolMenu._saveState, QSettings.intValue, QSettings.setValue]
  have hentry : ∀ k (hk : k < m.d_tools.length),
      (m._saveState st).intValue (SettingsKey.arrayEntry "toolMenu/pos" (k + 1) "idx") =
        (m.d_tools[k]).2 := by
    intro k hk
    have h := saveLoop_value_entry 0 m.d_tools
      (st.remove (SettingsKey.arraySize "toolMenu/pos")) k hk
    rw [Nat.zero_add] at h
    simp [ToolMenu._saveState, QSettings.intValue, QSettings.setValue, h]
  simp only [ToolMenu._loadState, hsize, hf, Int.toNat_ofNat]
  rw [foldl_push_eq, List.nil_append]
  apply List.ext_getElem
  · simp
  · intro k h1 h2
    simp only [List.length_map, List.length_range] at h1
    simp [hentry k h1]

/-- The tool kinds of the entries created for `p` are `p`. -/
theorem map_snd_entryFor (tools icons : List String) (p : List Int) :
    (p.map (entryFor tools icons)).map Prod.snd = p := by
  induction p with
  | nil => rfl
  | cons a p ih => rw [List.map_cons, List.map_cons, ih]; rfl

/-- The entries created for valid position values are labelled from the tables. -/
theorem labelled_entryFor (tools icons : List String) (hicons : icons.length = tools.length)
    (p : List Int) (hv : ∀ x ∈ p, validIndex tools.length x) :
    labelled tools icons (p.map (entryFor tools icons)) := by
  intro e he
  rw [List.mem_map] at he
  obtain ⟨x, hx, rfl⟩ := he
  exact ⟨elemAt_of_valid tools "" x (hv x hx),
    elemAt_of_valid icons "" x (by rw [hicons]; exact hv x hx)⟩

/-- A registry labelled from the tables is recreated from its tool kinds. -/
theorem entryFor_of_labelled (tools icons : List String) (r : List (ToolMenuItem × tool))
    (hl : labelled tools icons r) (hv : ∀ e ∈ r, validIndex tools.length e.2)
    (hicons : icons.length = tools.length) :
    (r.map Prod.snd).map (entryFor tools icons) = r := by
  induction r with
  | nil => rfl
  | cons e r ih =>
    have h1 := hl e (List.mem_cons_self _ _)
    have hve := hv e (List.mem_cons_self _ _)
    rw [elemAt_of_valid tools "" e.2 hve,
      elemAt_of_valid icons "" e.2 (by rw [hicons]; exact hve)] at h1
    simp only [List.map_cons]
    rw [ih (fun x hx => hl x (List.mem_cons_of_mem _ hx))
      (fun x hx => hv x (List.mem_cons_of_mem _ hx))]
    congr 1
    obtain ⟨⟨nm, ic⟩, t⟩ := e
    simp only [Option.some.injEq] at h1
    simp only [entryFor, h1.1, h1.2]

/-- Claim C2. For a registry `d_tools` whose length is the number of available tools and
whose tool values are valid indices (the icon table being as long as the label table), the
store written by `_saveState`, read by `_loadState` into the empty `d_positions` of a newly
constructed menu and rebuilt by `_buildAllAvailableTools` gives a registry with the same
sequence of tool kinds. Its items carry the labels and icons of the tables for these kinds,
so it equals the saved registry whenever that one was labelled from the tables. -/
theorem save_load_build_roundtrip {β γ : Type} (m : ToolMenu β) (st : QSettings) (b : γ)
    (hlen : m.d_tools.length = m.d_availableTools.length)
    (hicons : m.d_availableIcons.length = m.d_availableTools.length)
    (hv : ∀ e ∈ m.d_tools, validIndex m.d_availableTools.length e.2) :
    ∃ m', (((ToolMenu.fresh b m.d_availableTools m.d_availableIcons)._loadState
              (m._saveState st))._buildAllAvailableTools = some m') ∧
      m'.d_tools.map Prod.snd = m.d_tools.map Prod.snd ∧
      labelled m.d_availableTools m.d_availableIcons m'.d_tools ∧
      (labelled m.d_availableTools m.d_availableIcons m.d_tools → m'.d_tools = m.d_tools) := by
  have hpos := loadState_saveState m (ToolMenu.fresh b m.d_availableTools m.d_availableIcons)
    rfl st
  have hvp : ∀ x ∈ m.d_tools.map Prod.snd, validIndex m.d_availableTools.length x := by
    intro x hx
    rw [List.mem_map] at hx
    obtain ⟨e, he, rfl⟩ := hx
    exact hv e he
  have hrec : reconcile m.d_availableTools.length (m.d_tools.map Prod.snd) =
      m.d_tools.map Prod.snd := by
    rw [reconcile_eq]; simp [hlen, intsFrom]
  have hbuild := build_of_valid
    ((ToolMenu.fresh b m.d_availableTools m.d_availableIcons)._loadState (m._saveState st))
    hicons (by rw [hpos]; exact hvp)
  rw [hpos] at hbuild
  refine ⟨_, hbuild, ?_, ?_, ?_⟩
  all_goals
    simp only [ToolMenu._loadState, ToolMenu.fresh, hrec, List.nil_append]
    rw [List.take_of_length_le (by simp [hlen])]
  · exact map_snd_entryFor _ _ _
  · exact labelled_entryFor _ _ hicons _ hvp
  · intro hl; exact entryFor_of_labelled _ _ _ hl hv hicons

/-- Claim C2, instance: the menu with the first two tools swapped, saved into an empty
store. -/
theorem save_load_build_roundtrip_witness :
    ∃ m', (((ToolMenu.fresh (0 : Int) availableTools availableIcons)._loadState
              (swappedMenu._saveState emptySettings))._buildAllAvailableTools = some m') ∧
      m'.d_tools.map Prod.snd = [1, 0, 2, 3, 4, 5, 6, 7, 8, 9, 10, 11] := by
  obtain ⟨m', h1, h2, _⟩ := save_load_build_roundtrip swappedMenu emptySettings (0 : Int)
    (by decide) (by decide) (by decide)
  exact ⟨m', h1, h2.trans (by decide)⟩

/-- An invalid first position value makes the first lookup fail. -/
theorem build_none_of_head_invalid {β : Type} (m : ToolMenu β) (x : Int) (rest : List Int)
    (hp : m.d_positions = x :: rest) (hn : 0 < m.d_availableTools.length)
    (hx : ¬ validIndex m.d_availableTools.length x) :
    m._buildAllAvailableTools = none := by
  obtain ⟨k, hk⟩ : ∃ k, m.d_availableTools.length = k + 1 :=
    ⟨_, (Nat.succ_pred_eq_of_pos hn).symm⟩
  have hstep : buildStep
      { m with d_positions := reconcile m.d_availableTools.length m.d_positions } 0 = none := by
    unfold buildStep
    simp only [reconcile_eq, hp, List.cons_append, List.getElem?_cons_zero,
      elemAt_eq_none_of_not_valid _ x hx]
  unfold ToolMenu._buildAllAvailableTools
  rw [hk, List.range_succ_eq_map, List.foldlM_cons, ← hk, hstep]
  rfl

/-- Claim C3, as amended. For the position list loaded by `_loadState` from any store,
the reconciliation keeps the loaded entries as a prefix and every entry it appends after
them is a valid tool index, whatever the loaded entries are. Hence every entry of the
reconciled `d_positions` is a valid tool index if and only if every loaded entry is one:
the reconciliation checks none. When the loaded entries are valid (the icon table being as
long as the label table) every lookup `d_availableTools[d_positions[i]]` and
`d_availableIcons[d_positions[i]]` is in range and `_buildAllAvailableTools` produces the
registry. -/
theorem reconciled_positions_valid {β : Type} (b : β) (tools icons : List String)
    (st : QSettings) (hicons : icons.length = tools.length) :
    (((ToolMenu.fresh b tools icons)._loadState st).d_positions <+:
      reconcile tools.length ((ToolMenu.fresh b tools icons)._loadState st).d_positions) ∧
    (∀ x ∈ (reconcile tools.length
          ((ToolMenu.fresh b tools icons)._loadState st).d_positions).drop
          ((ToolMenu.fresh b tools icons)._loadState st).d_positions.length,
        validIndex tools.length x) ∧
    ((∀ x ∈ reconcile tools.length ((ToolMenu.fresh b tools icons)._loadState st).d_positions,
        validIndex tools.length x) ↔
      (∀ x ∈ ((ToolMenu.fresh b tools icons)._loadState st).d_positions,
        validIndex tools.length x)) ∧
    ((∀ x ∈ ((ToolMenu.fresh b tools icons)._loadState st).d_positions,
        validIndex tools.length x) →
      ∃ m', ((ToolMenu.fresh b tools icons)._loadState st)._buildAllAvailableTools = some m' ∧
        m'.d_positions =
          reconcile tools.length ((ToolMenu.fresh b tools icons)._loadState st).d_positions ∧
        (∀ x ∈ m'.d_positions, validIndex tools.length x) ∧
        m'.d_tools = (m'.d_positions.take tools.length).map (entryFor tools icons)) := by
  refine ⟨?_, ?_, reconcile_valid_iff _ _, ?_⟩
  · rw [reconcile_eq]; exact List.prefix_append _ _
  · intro x hx
    rw [reconcile_eq, List.drop_left, mem_intsFrom] at hx
    obtain ⟨i, _, hi, rfl⟩ := hx
    constructor <;> omega
  · intro hv
    have hbuild := build_of_valid ((ToolMenu.fresh b tools icons)._loadState st) hicons hv
    refine ⟨_, hbuild, rfl, ?_, ?_⟩
    · exact (reconcile_valid_iff _ _).2 hv
    · simp [ToolMenu._loadState, ToolMenu.fresh]

/-- Claim C3, instance: a store holding the two saved positions `[1, 0]` is loaded against
the twelve tools of the constructor's tables; the reconciliation appends `2, ..., 11`, every
entry is a valid index and the registry is built. -/
theorem reconciled_positions_valid_witness :
    availableIcons.length = availableTools.length ∧
    ((ToolMenu.fresh (0 : Int) availableTools availableIcons)._loadState
        shortSettings).d_positions = [1, 0] ∧
    (∀ x ∈ (reconcile availableTools.length
          ((ToolMenu.fresh (0 : Int) availableTools availableIcons)._loadState
            shortSettings).d_positions).drop
          ((ToolMenu.fresh (0 : Int) availableTools availableIcons)._loadState
            shortSettings).d_positions.length,
        validIndex availableTools.length x) ∧
    ∃ m', ((ToolMenu.fresh (0 : Int) availableTools availableIcons)._loadState
        shortSettings)._buildAllAvailableTools = some m' ∧
      m'.d_positions = [1, 0, 2, 3, 4, 5, 6, 7, 8, 9, 10, 11] ∧
      ∀ x ∈ m'.d_positions, validIndex availableTools.length x := by
  have hpos : ((ToolMenu.fresh (0 : Int) availableTools availableIcons)._loadState
        shortSettings).d_positions = [1, 0] := by
    decide
  have h := reconciled_positions_valid (0 : Int) availableTools availableIcons
    shortSettings (by decide)
  obtain ⟨m', h1, h2, h3, _⟩ := h.2.2.2 (by rw [hpos]; decide)
  refine ⟨by decide, hpos, h.2.1, m', h1, ?_, h3⟩
  rw [h2, hpos, reconcile_eq]
  decide

/-- Claim C3 fails as stated: a store whose saved array is `[12]` is loaded unchanged, the
reconciled list still holds `12`, which is no index into the twelve tools, and the first
lookup of `_buildAllAvailableTools` is out of range. -/
theorem stale_position_out_of_range :
    ((ToolMenu.fresh (0 : Int) availableTools availableIcons)._loadState
        staleSettings).d_positions = [12] ∧
    (12 : Int) ∈ reconcile availableTools.length
      ((ToolMenu.fresh (0 : Int) availableTools availableIcons)._loadState
        staleSettings).d_positions ∧
    ¬ validIndex availableTools.length 12 ∧
    elemAt availableTools 12 = none ∧
    (((ToolMenu.fresh (0 : Int) availableTools availableIcons)._loadState
        staleSettings)._buildAllAvailableTools).isNone = true := by
  have hpos : ((ToolMenu.fresh (0 : Int) availableTools availableIcons)._loadState
        staleSettings).d_positions = [12] := by
    decide
  refine ⟨hpos, ?_, by decide, by decide, ?_⟩
  · rw [hpos, reconcile_eq]; decide
  · rw [build_none_of_head_invalid _ 12 [] hpos (by decide) (by decide)]
    rfl

/-! ## The hardware filter -/

/-- Unfolding `intsFrom` at its first index. -/
theorem intsFrom_succ (a k : Nat) : intsFrom a (k + 1) = (a : Int) :: intsFrom (a + 1) k := by
  simp [intsFrom, List.range'_succ]

/-- Closed form of the three vectors filled by the loop of `loadToolsFromFilter`. -/
theorem partitionLoop_eq (filter : Filter) (r : List (ToolMenuItem × tool)) (i : Nat)
    (acc : Partition) :
    partitionLoop filter r (i : Int) acc =
      { compatibleTools := acc.compatibleTools ++
          ((indexedFrom i r).filter (fun x => filter.compatible x.2.2)).map (fun x => x.2.1),
        compatiblePositions := acc.compatiblePositions ++
          ((indexedFrom i r).filter (fun x => filter.compatible x.2.2)).map (fun x => x.1),
        notCompatibleTools := acc.notCompatibleTools ++ rejectedItems filter r } := by
  induction r generalizing i acc with
  | nil => simp [partitionLoop, indexedFrom, rejectedItems]
  | cons e rest ih =>
    have hcast : ((i : Int) + 1) = ((i + 1 : Nat) : Int) := by push_cast; rfl
    unfold partitionLoop
    by_cases hc : filter.compatible e.2 = true
    · rw [if_pos hc, hcast, ih]
      simp [indexedFrom, intsFrom_succ, rejectedItems, hc]
    · rw [if_neg hc, hcast, ih]
      simp [indexedFrom, intsFrom_succ, rejectedItems, hc]

/-- The items of the accepted entries, with or without their indices. -/
theorem accepted_items (filter : Filter) (r : List (ToolMenuItem × tool)) (i : Nat) :
    ((indexedFrom i r).filter (fun x => filter.compatible x.2.2)).map (fun x => x.2.1) =
      acceptedItems filter r := by
  induction r generalizing i with
  | nil => simp [indexedFrom, acceptedItems]
  | cons e rest ih =>
    have := ih (i + 1)
    unfold indexedFrom at this ⊢
    unfold acceptedItems at this ⊢
    by_cases hc : filter.compatible e.2 = true <;>
      simp [intsFrom_succ, hc, List.filter_cons, this]

/-- Closed form of the loop of the null-filter branch. -/
theorem removeAllLoop_eq {β : Type} (B : BaseMenu β) (r : List (ToolMenuItem × tool))
    (acc : β × List MenuCall) :
    removeAllLoop B r acc =
      ((r.map (fun e => MenuCall.removeMenuItem e.1)).foldl B.perform acc.1,
        acc.2 ++ r.map (fun e => MenuCall.removeMenuItem e.1)) := by
  induction r generalizing acc with
  | nil => simp [removeAllLoop]
  | cons e rest ih => rw [removeAllLoop, ih]; simp

/-- Some item is rejected exactly when some tracked tool is incompatible. -/
theorem rejectedItems_ne_nil (filter : Filter) (r : List (ToolMenuItem × tool)) :
    rejectedItems filter r ≠ [] ↔ ∃ e ∈ r, filter.compatible e.2 = false := by
  unfold rejectedItems
  rw [Ne, List.map_eq_nil_iff, List.filter_eq_nil_iff]
  simp

/-- Each index of `indexedFrom` is the place of its entry in the registry. -/
theorem indexedFrom_spec (i : Nat) (r : List (ToolMenuItem × tool)) :
    ∀ x ∈ indexedFrom i r, ∃ k : Nat, x.1 = ((i + k : Nat) : Int) ∧ r[k]? = some x.2 := by
  induction r generalizing i with
  | nil => simp [indexedFrom]
  | cons e rest ih =>
    intro x hx
    have hx' : x = ((i : Int), e) ∨ x ∈ indexedFrom (i + 1) rest := by
      simpa [indexedFrom, intsFrom_succ] using hx
    rcases hx' with rfl | hx'
    · exact ⟨0, by simp, by simp⟩
    · obtain ⟨k, h1, h2⟩ := ih (i + 1) x hx'
      exact ⟨k + 1, by rw [h1]; congr 1; omega, by simpa using h2⟩

/-- Each accepted entry sits at its index in the registry and is compatible. -/
theorem accepted_spec (filter : Filter) (r : List (ToolMenuItem × tool)) :
    ∀ x ∈ accepted filter r, elemAt r x.1 = some x.2 ∧ filter.compatible x.2.2 = true := by
  intro x hx
  unfold accepted at hx
  rw [List.mem_filter] at hx
  obtain ⟨k, h1, h2⟩ := indexedFrom_spec 0 r x hx.1
  refine ⟨?_, hx.2⟩
  rw [h1]
  simp [elemAt, h2]

/-- The result of `loadToolsFromFilter` for a filter of another hardware identity. -/
theorem loadToolsFromFilter_some {β : Type} (B : BaseMenu β) (m : ToolMenu β) (f : Filter)
    (hne : m.d_current_hw_name ≠ f.hw_name) :
    m.loadToolsFromFilter B (some f) =
      ({ m with
          base := B.perform m.base
            (if rejectedItems f m.d_tools ≠ [] ∧ B.d_items m.base ≠ 0 then
              MenuCall.removeMenuItems (rejectedItems f m.d_tools)
            else MenuCall.insertMenuItem (acceptedItems f m.d_tools)
              ((accepted f m.d_tools).map Prod.fst)),
          d_current_hw_name := f.hw_name,
          d_compatibleTools := acceptedItems f m.d_tools },
        [if rejectedItems f m.d_tools ≠ [] ∧ B.d_items m.base ≠ 0 then
            MenuCall.removeMenuItems (rejectedItems f m.d_tools)
          else MenuCall.insertMenuItem (acceptedItems f m.d_tools)
            ((accepted f m.d_tools).map Prod.fst)]) := by
  have hp := partitionLoop_eq f m.d_tools 0 (Partition.mk [] [] [])
  rw [Nat.cast_zero] at hp
  simp only [ToolMenu.loadToolsFromFilter, if_neg hne, hp, List.nil_append, accepted_items,
    ne_eq, List.length_eq_zero, accepted]

/-- The early return of `loadToolsFromFilter` for the tracked hardware identity. -/
theorem loadToolsFromFilter_same {β : Type} (B : BaseMenu β) (m : ToolMenu β) (f : Filter)
    (he : m.d_current_hw_name = f.hw_name) :
    m.loadToolsFromFilter B (some f) = (m, []) := by
  simp only [ToolMenu.loadToolsFromFilter, if_pos he]

/-- After a non-null filter was applied its hardware identity is the tracked one. -/
theorem loadToolsFromFilter_hw_name {β : Type} (B : BaseMenu β) (m : ToolMenu β) (f : Filter) :
    (m.loadToolsFromFilter B (some f)).1.d_current_hw_name = f.hw_name := by
  by_cases he : m.d_current_hw_name = f.hw_name
  · rw [loadToolsFromFilter_same B m f he]; exact he
  · rw [loadToolsFromFilter_some B m f he]

/-- Claim C5. After `loadToolsFromFilter(f)` has been applied to any menu state with a
non-null filter `f`, applying it again with any filter `g` of the same hardware identity
makes no call on `BaseMenu` (neither `removeMenuItem` nor `insertMenuItem`) and returns the
state unchanged: registry, compatible-tool list, hardware identity and `BaseMenu` part. -/
theorem filter_reapplied_is_noop {β : Type} (B : BaseMenu β) (m : ToolMenu β) (f g : Filter)
    (hsame : g.hw_name = f.hw_name) :
    (m.loadToolsFromFilter B (some f)).1.loadToolsFromFilter B (some g) =
      ((m.loadToolsFromFilter B (some f)).1, []) :=
  loadToolsFromFilter_same B _ g ((loadToolsFromFilter_hw_name B m f).trans hsame.symm)

/-- Claim C6. In a state where all tracked tools are displayed (`d_items` equals the number
of tracked tools), for a filter of another hardware identity that rejects at least one
tracked tool, `loadToolsFromFilter` makes exactly one call, the removal of the items whose
tool the filter rejects, in registry order; it makes no insertion, leaves the registry as it
was, and records the items of the accepted tools as compatible. -/
theorem filter_removes_rejected_only {β : Type} (B : BaseMenu β) (m : ToolMenu β) (f : Filter)
    (hshown : B.d_items m.base = (m.d_tools.length : Int))
    (hne : m.d_current_hw_name ≠ f.hw_name)
    (hrej : ∃ e ∈ m.d_tools, f.compatible e.2 = false) :
    (m.loadToolsFromFilter B (some f)).2 =
        [MenuCall.removeMenuItems (rejectedItems f m.d_tools)] ∧
    (∀ items positions,
        MenuCall.insertMenuItem items positions ∉ (m.loadToolsFromFilter B (some f)).2) ∧
    (m.loadToolsFromFilter B (some f)).1.d_tools = m.d_tools ∧
    (m.loadToolsFromFilter B (some f)).1.d_compatibleTools = acceptedItems f m.d_tools ∧
    (m.loadToolsFromFilter B (some f)).1.base =
        B.perform m.base (MenuCall.removeMenuItems (rejectedItems f m.d_tools)) := by
  have hr : rejectedItems f m.d_tools ≠ [] := (rejectedItems_ne_nil f m.d_tools).2 hrej
  have hitems : B.d_items m.base ≠ 0 := by
    obtain ⟨e, he, _⟩ := hrej
    have : 0 < m.d_tools.length := List.length_pos_of_mem he
    omega
  rw [loadToolsFromFilter_some B m f hne, if_pos ⟨hr, hitems⟩]
  refine ⟨rfl, ?_, rfl, rfl, rfl⟩
  intro items positions h
  simp at h

/-- Claim C7, as amended. For a non-null filter whose hardware identity differs from the
tracked one, `loadToolsFromFilter` makes exactly one call on `BaseMenu`: if the filter
rejects a tracked tool and the visible-item count `d_items` is not zero, it removes exactly
the items of the rejected tools; otherwise (no tool rejected, or nothing visible) it inserts
the items of the accepted tools, each with its index in the registry as position. It never
does both, and the registry is unchanged. -/
theorem filter_removes_or_inserts {β : Type} (B : BaseMenu β) (m : ToolMenu β) (f : Filter)
    (hne : m.d_current_hw_name ≠ f.hw_name) :
    (((∃ e ∈ m.d_tools, f.compatible e.2 = false) ∧ B.d_items m.base ≠ 0) →
      (m.loadToolsFromFilter B (some f)).2 =
        [MenuCall.removeMenuItems (rejectedItems f m.d_tools)]) ∧
    (¬ ((∃ e ∈ m.d_tools, f.compatible e.2 = false) ∧ B.d_items m.base ≠ 0) →
      (m.loadToolsFromFilter B (some f)).2 =
        [MenuCall.insertMenuItem ((accepted f m.d_tools).map (fun x => x.2.1))
          ((accepted f m.d_tools).map Prod.fst)]) ∧
    (∀ x ∈ accepted f m.d_tools,
      elemAt m.d_tools x.1 = some x.2 ∧ f.compatible x.2.2 = true) ∧
    (accepted f m.d_tools).map (fun x => x.2.1) = acceptedItems f m.d_tools ∧
    (m.loadToolsFromFilter B (some f)).2.length = 1 ∧
    (m.loadToolsFromFilter B (some f)).1.d_tools = m.d_tools := by
  rw [loadToolsFromFilter_some B m f hne, ← rejectedItems_ne_nil]
  have hacc : (accepted f m.d_tools).map (fun x => x.2.1) = acceptedItems f m.d_tools :=
    accepted_items f m.d_tools 0
  refine ⟨?_, ?_, accepted_spec f m.d_tools, hacc, rfl, rfl⟩
  · intro h; simp only [if_pos h]
  · intro h; simp only [if_neg h, hacc]

/-- Claim C8. `loadToolsFromFilter(nullptr)` calls `removeMenuItem` once for every tracked
item, in registry order, sets the tracked hardware identity to the empty string and leaves
the registry unchanged. A following application of any filter with a non-empty hardware
identity is therefore not skipped: it makes its one call, records the identity and
recomputes the compatible tools. -/
theorem null_filter_removes_all {β : Type} (B : BaseMenu β) (m : ToolMenu β) :
    (m.loadToolsFromFilter B none).2 = m.d_tools.map (fun e => MenuCall.removeMenuItem e.1) ∧
    (m.loadToolsFromFilter B none).1.base =
      (m.d_tools.map (fun e => MenuCall.removeMenuItem e.1)).foldl B.perform m.base ∧
    (m.loadToolsFromFilter B none).1.d_current_hw_name = "" ∧
    (m.loadToolsFromFilter B none).1.d_tools = m.d_tools ∧
    (∀ g : Filter, g.hw_name ≠ "" →
      ((m.loadToolsFromFilter B none).1.loadToolsFromFilter B (some g)).2.length = 1 ∧
      ((m.loadToolsFromFilter B none).1.loadToolsFromFilter B (some g)).1.d_current_hw_name =
        g.hw_name ∧
      ((m.loadToolsFromFilter B none).1.loadToolsFromFilter B (some g)).1.d_compatibleTools =
        acceptedItems g m.d_tools) := by
  have h0 : m.loadToolsFromFilter B none =
      ({ m with
          base := (m.d_tools.map (fun e => MenuCall.removeMenuItem e.1)).foldl B.perform m.base,
          d_current_hw_name := "" },
        m.d_tools.map (fun e => MenuCall.removeMenuItem e.1)) := by
    simp only [ToolMenu.loadToolsFromFilter, removeAllLoop_eq, List.nil_append]
  rw [h0]
  refine ⟨rfl, rfl, rfl, rfl, ?_⟩
  intro g hg
  rw [loadToolsFromFilter_some B _ g (fun h => hg h.symm)]
  exact ⟨rfl, rfl, rfl⟩

/-- Claim C5, instance: two filter objects for `M2K` applied in a row. -/
theorem filter_reapplied_is_noop_witness :
    m2kOtherFilter.hw_name = m2kFilter.hw_name ∧
    ((swappedMenu.loadToolsFromFilter countingMenu (some m2kFilter)).1.loadToolsFromFilter
      countingMenu (some m2kOtherFilter)).2 = [] :=
  ⟨by decide,
    congrArg Prod.snd
      (filter_reapplied_is_noop countingMenu swappedMenu m2kFilter m2kOtherFilter (by decide))⟩

/-- Claim C6, instance: all twelve tools shown, the filter rejects tool 11. -/
theorem filter_removes_rejected_only_witness :
    countingMenu.d_items swappedMenu.base = (swappedMenu.d_tools.length : Int) ∧
    swappedMenu.d_current_hw_name ≠ m2kFilter.hw_name ∧
    (∃ e ∈ swappedMenu.d_tools, m2kFilter.compatible e.2 = false) ∧
    (swappedMenu.loadToolsFromFilter countingMenu (some m2kFilter)).2 =
      [MenuCall.removeMenuItems [ToolMenuItem.mk "NewInstrument" ":/menu/calibration.png"]] :=
  ⟨by decide, by decide, by decide,
    (filter_removes_rejected_only countingMenu swappedMenu m2kFilter
      (by decide) (by decide) (by decide)).1.trans (by decide)⟩

/-- Claim C7, instance: the `M2K` filter on the menu with nothing displayed. -/
theorem filter_removes_or_inserts_witness :
    hiddenMenu.d_current_hw_name ≠ m2kFilter.hw_name ∧
    ((hiddenMenu.loadToolsFromFilter countingMenu (some m2kFilter)).2).length = 1 :=
  ⟨by decide,
    (filter_removes_or_inserts countingMenu hiddenMenu m2kFilter (by decide)).2.2.2.2.1⟩

/-- Claim C7 fails as stated: with no item displayed (`d_items = 0`) and a filter that
rejects tool 11, the call made is not the removal of the rejected item but the insertion of
the eleven accepted ones. -/
theorem hidden_menu_inserts_despite_rejection :
    hiddenMenu.d_current_hw_name ≠ m2kFilter.hw_name ∧
    (∃ e ∈ hiddenMenu.d_tools, m2kFilter.compatible e.2 = false) ∧
    (hiddenMenu.loadToolsFromFilter countingMenu (some m2kFilter)).2 ≠
      [MenuCall.removeMenuItems (rejectedItems m2kFilter hiddenMenu.d_tools)] ∧
    (hiddenMenu.loadToolsFromFilter countingMenu (some m2kFilter)).2 =
      [MenuCall.insertMenuItem (acceptedItems m2kFilter hiddenMenu.d_tools)
        [0, 1, 2, 3, 4, 5, 6, 7, 8, 9, 10]] := by
  refine ⟨by decide, by decide, by decide, by decide⟩

/-- Claim C8, instance: the `M2K` filter, then no filter, then the `M2K` filter again. -/
theorem null_filter_removes_all_witness :
    m2kFilter.hw_name ≠ "" ∧
    (((swappedMenu.loadToolsFromFilter countingMenu (some m2kFilter)).1.loadToolsFromFilter
        countingMenu none).1.loadToolsFromFilter countingMenu (some m2kFilter)).2.length = 1 :=
  ⟨by decide,
    ((null_filter_removes_all countingMenu
      (swappedMenu.loadToolsFromFilter countingMenu (some m2kFilter)).1).2.2.2.2
        m2kFilter (by decide)).1⟩

/-! ## Lookup and reordering -/

/-- The lookup loop finds nothing exactly when no entry has kind `t`. -/
theorem lookupLoop_eq_none (t : tool) (r : List (ToolMenuItem × tool)) :
    lookupLoop t r = none ↔ ∀ e ∈ r, e.2 ≠ t := by
  induction r with
  | nil => simp [lookupLoop]
  | cons e rest ih =>
    unfold lookupLoop
    by_cases h : e.2 = t
    · simp [h]
    · simp [h, ih]

/-- The lookup loop returns the item of the first entry of kind `t`. -/
theorem lookupLoop_first (t : tool) (r : List (ToolMenuItem × tool))
    (h : ∃ e ∈ r, e.2 = t) :
    ∃ pre e post, r = pre ++ e :: post ∧ (∀ x ∈ pre, x.2 ≠ t) ∧ e.2 = t ∧
      lookupLoop t r = some e.1 := by
  induction r with
  | nil => simp at h
  | cons a rest ih =>
    by_cases ha : a.2 = t
    · exact ⟨[], a, rest, rfl, by simp, ha, by simp [lookupLoop, ha]⟩
    · have h' : ∃ e ∈ rest, e.2 = t := by
        obtain ⟨e, he, het⟩ := h
        rcases List.mem_cons.1 he with rfl | he
        · exact absurd het ha
        · exact ⟨e, he, het⟩
      obtain ⟨pre, e, post, h1, h2, h3, h4⟩ := ih h'
      refine ⟨a :: pre, e, post, by rw [h1]; rfl, ?_, h3, by simp [lookupLoop, ha, h4]⟩
      intro x hx
      rcases List.mem_cons.1 hx with rfl | hx
      · exact ha
      · exact h2 x hx

/-- Claim C9. `getToolMenuItemFor(t)` returns null exactly when no registry entry has tool
kind `t`; when some entry has it, the result is the item of the first such entry (every
entry before it has another kind). -/
theorem getToolMenuItemFor_first_match {β : Type} (m : ToolMenu β) (t : tool) :
    (m.getToolMenuItemFor t = none ↔ ∀ e ∈ m.d_tools, e.2 ≠ t) ∧
    ((∃ e ∈ m.d_tools, e.2 = t) →
      ∃ pre e post, m.d_tools = pre ++ e :: post ∧ (∀ x ∈ pre, x.2 ≠ t) ∧ e.2 = t ∧
        m.getToolMenuItemFor t = some e.1) :=
  ⟨lookupLoop_eq_none t m.d_tools, lookupLoop_first t m.d_tools⟩

/-- Removing the element at index `k` and putting it in front permutes the list. -/
theorem perm_cons_eraseIdx {α : Type} (l : List α) (k : Nat) (hk : k < l.length) :
    (l[k] :: l.eraseIdx k).Perm l := by
  have h : l = l.take k ++ l[k] :: l.drop (k + 1) := by
    rw [List.getElem_cons_drop, List.take_append_drop]
  rw [List.eraseIdx_eq_take_drop_succ]
  conv_rhs => rw [h]
  exact List.perm_middle.symm

/-- The guard of `_updateToolList` when the counts differ. -/
theorem updateToolList_of_ne {β : Type} (B : BaseMenu β) (m : ToolMenu β) (src dst : Int)
    (h : B.d_items m.base ≠ (m.d_tools.length : Int)) :
    m._updateToolList B src dst = some m := by
  simp only [ToolMenu._updateToolList, if_neg h]

/-- The move of `_updateToolList` when the counts agree and both indices are in range. -/
theorem updateToolList_of_eq {β : Type} (B : BaseMenu β) (m : ToolMenu β) (src dst : Nat)
    (h : B.d_items m.base = (m.d_tools.length : Int))
    (hsrc : src < m.d_tools.length) (hdst : dst < m.d_tools.length) :
    m._updateToolList B (src : Int) (dst : Int) =
      some { m with d_tools := (m.d_tools.eraseIdx src).insertIdx dst m.d_tools[src] } := by
  have hat : elemAt m.d_tools (src : Int) = some m.d_tools[src] := by
    simp [elemAt, List.getElem?_eq_getElem hsrc]
  have hlen : (m.d_tools.eraseIdx src).length = m.d_tools.length - 1 := by
    rw [List.length_eraseIdx, if_pos hsrc]
  have hcond : 0 ≤ (dst : Int) ∧ (dst : Int) ≤ ((m.d_tools.eraseIdx src).length : Int) := by
    rw [hlen]; omega
  simp only [ToolMenu._updateToolList, if_pos h, hat, Int.toNat_ofNat, if_pos hcond]

/-- Claim C4. If the visible-item count `d_items` differs from the number of tracked tools,
`_updateToolList(from, to)` leaves the state, and so the registry order, unchanged for every
`from` and `to`; hence a call that changes the registry order is one made while `d_items`
equals the number of tracked tools. -/
theorem updateToolList_guard {β : Type} (B : BaseMenu β) (m : ToolMenu β) (src dst : Int) :
    (B.d_items m.base ≠ (m.d_tools.length : Int) → m._updateToolList B src dst = some m) ∧
    (∀ m', m._updateToolList B src dst = some m' → m'.d_tools ≠ m.d_tools →
      B.d_items m.base = (m.d_tools.length : Int)) := by
  refine ⟨updateToolList_of_ne B m src dst, ?_⟩
  intro m' hm' hdiff
  by_contra h
  rw [updateToolList_of_ne B m src dst h] at hm'
  exact hdiff (by rw [← Option.some.inj hm'])

/-- Claim C10. When `d_items` equals the registry length `n` and `0 ≤ from < n`,
`0 ≤ to < n`, `_updateToolList(from, to)` yields a registry of length `n` that is a
permutation of the old one (entries are moved as pairs), in which the entry formerly at
index `from` is at index `to`, and whose other entries are in their former relative order:
without the moved entry both registries are the same list. -/
theorem updateToolList_permutes {β : Type} (B : BaseMenu β) (m : ToolMenu β) (src dst : Int)
    (h : B.d_items m.base = (m.d_tools.length : Int))
    (hsrc : 0 ≤ src ∧ src < (m.d_tools.length : Int))
    (hdst : 0 ≤ dst ∧ dst < (m.d_tools.length : Int)) :
    ∃ m', m._updateToolList B src dst = some m' ∧
      m'.d_tools.length = m.d_tools.length ∧
      m'.d_tools.Perm m.d_tools ∧
      m'.d_tools[dst.toNat]? = m.d_tools[src.toNat]? ∧
      (m.d_tools[src.toNat]?).isSome = true ∧
      m'.d_tools.eraseIdx dst.toNat = m.d_tools.eraseIdx src.toNat := by
  obtain ⟨s, rfl⟩ := Int.eq_ofNat_of_zero_le hsrc.1
  obtain ⟨d, rfl⟩ := Int.eq_ofNat_of_zero_le hdst.1
  have hs : s < m.d_tools.length := by omega
  have hd : d < m.d_tools.length := by omega
  have hlen : (m.d_tools.eraseIdx s).length = m.d_tools.length - 1 := by
    rw [List.length_eraseIdx, if_pos hs]
  have hdle : d ≤ (m.d_tools.eraseIdx s).length := by rw [hlen]; omega
  refine ⟨_, updateToolList_of_eq B m s d h hs hd, ?_, ?_, ?_, ?_, ?_⟩
  · simp only [List.length_insertIdx _ _ hdle, hlen]; omega
  · exact (List.perm_insertIdx _ _ hdle).trans (perm_cons_eraseIdx _ _ hs)
  · have hd' : d < ((m.d_tools.eraseIdx s).insertIdx d m.d_tools[s]).length := by
      rw [List.length_insertIdx _ _ hdle]; omega
    simp only [Int.toNat_ofNat]
    rw [List.getElem?_eq_getElem hd', List.getElem?_eq_getElem hs,
      List.getElem_insertIdx_self _ _ _ hdle]
  · simp [List.getElem?_eq_getElem hs]
  · simp only [Int.toNat_ofNat, List.eraseIdx_insertIdx]

/-- Claim C4, instance: eleven visible items for twelve tracked tools. -/
theorem updateToolList_guard_witness :
    countingMenu.d_items filteredMenu.base ≠ (filteredMenu.d_tools.length : Int) ∧
    (filteredMenu._updateToolList countingMenu 0 3).map (fun m => m.d_tools) =
      some filteredMenu.d_tools :=
  ⟨by decide,
    congrArg (Option.map (fun m => m.d_tools))
      ((updateToolList_guard countingMenu filteredMenu 0 3).1 (by decide))⟩

/-- Claim C10, instance: the first entry of the swapped menu is moved to index 3. -/
theorem updateToolList_permutes_witness :
    countingMenu.d_items swappedMenu.base = (swappedMenu.d_tools.length : Int) ∧
    ∃ m', swappedMenu._updateToolList countingMenu 0 3 = some m' ∧
      m'.d_tools.map Prod.snd = [0, 2, 3, 1, 4, 5, 6, 7, 8, 9, 10, 11] := by
  obtain ⟨m', h1, _⟩ := updateToolList_permutes countingMenu swappedMenu 0 3
    (by decide) (by decide) (by decide)
  refine ⟨by decide, m', h1, ?_⟩
  have h2 : swappedMenu._updateToolList countingMenu 0 3 =
      some { swappedMenu with
        d_tools := (swappedMenu.d_tools.eraseIdx 0).insertIdx 3
          (swappedMenu.d_tools.get ⟨0, by decide⟩) } :=
    updateToolList_of_eq countingMenu swappedMenu 0 3 (by decide) (by decide) (by decide)
  rw [h2] at h1
  rw [← Option.some.inj h1]
  decide

/-- Claim C9, instance: tool 0 is tracked by the swapped menu and its item is returned,
tool 12 is not tracked and the result is null. -/
theorem getToolMenuItemFor_first_match_witness :
    (∃ e ∈ swappedMenu.d_tools, e.2 = 0) ∧
    (∃ e ∈ swappedMenu.d_tools, e.2 = 0 ∧ swappedMenu.getToolMenuItemFor 0 = some e.1) ∧
    swappedMenu.getToolMenuItemFor 12 = none := by
  obtain ⟨pre, e, post, hsplit, _, het, h⟩ :=
    (getToolMenuItemFor_first_match swappedMenu 0).2 (by decide)
  refine ⟨by decide, ⟨e, ?_, het, h⟩,
    (getToolMenuItemFor_first_match swappedMenu 12).1.2 (by decide)⟩
  rw [hsplit]
  exact List.mem_append_right _ (List.mem_cons_self _ _)

end adiscope
